import Mathlib

/-
Shallow embedding of `SimpleBlockChain.py_Luotuo/BlockchainDemoPY.py`.

The program is a single-file blockchain demo with three classes:
`Transaction`, `Block`, `Chain`.  External capabilities (SHA-256, ECDSA
signing and verification of the `cryptography` library) are abstracted as
function parameters `sha`, `signFn` and `verify`; everything else is
translated directly from the Python source.  Python methods that mutate
`self` and may raise `ValueError` are embedded as pure functions returning
the updated object together with an `Except Err Unit` outcome; the unbounded
mining loop is embedded with explicit fuel, `none` standing for a run that
has not terminated within the fuel bound (and hence has no observable
post-state).
-/

namespace BlockchainDemo

/-- The `ValueError`s raised by the source, by the spec's taxonomy:
`invalidAddress` for "无效的发送方或接收方地址", `invalidTransaction` for
"无效的交易，可能被篡改或签名无效" and "发现被篡改的交易，停止挖矿",
`missingSignature` for "缺少签名". -/
inductive Err where
  | invalidAddress
  | invalidTransaction
  | missingSignature
deriving DecidableEq, Repr

/-- Outcome of the external ECDSA verification in `Transaction.is_valid`:
`ok` when `public_key.verify` succeeds, `invalidSignature` for the
`InvalidSignature` exception, `malformedAddress` for the `ValueError`
raised by `bytes.fromhex` / `from_encoded_point` on a bad address. -/
inductive VerifyOutcome where
  | ok
  | invalidSignature
  | malformedAddress
deriving DecidableEq, Repr

/-- Source `class Transaction`: `from_address` is `Optional[str]` (None for
coinbase/reward transactions), `to_address : str`, `amount` (numeric,
modelled as `Int`; its sign is never constrained by the source),
`signature : Optional[bytes]` modelled as `Option String`. -/
structure Transaction where
  from_address : Option String
  to_address : String
  amount : Int
  signature : Option String
deriving DecidableEq, Repr

/-- Python f-string rendering of an `Optional[str]`: `None` prints as
the text "None", a string prints as itself. -/
def strOfOpt : Option String → String
  | none => "None"
  | some s => s

/-- Python truthiness of an `Optional[str]`/`Optional[bytes]` field:
`not x` is true exactly when the field is `None` or empty. -/
def falsyOpt : Option String → Bool
  | none => true
  | some s => s == ""

/-- Source `Transaction.compute_hash`: SHA-256 of the concatenation
`f"{self.from_address}{self.to_address}{self.amount}"`. -/
def Transaction.compute_hash (sha : String → String) (tx : Transaction) : String :=
  sha (strOfOpt tx.from_address ++ tx.to_address ++ toString tx.amount)

/-- Source `Transaction.sign`: computes the transaction hash, signs it with the
private key (abstracted as `signFn`) and stores the signature.  The source
performs no precondition check whatsoever: it never raises, and it
overwrites any signature already present. -/
def Transaction.sign (sha : String → String) (signFn : String → String)
    (tx : Transaction) : Except Err Transaction :=
  .ok { tx with signature := some (signFn (tx.compute_hash sha)) }

/-- Source `Transaction.is_valid`:
reward transactions (`from_address is None`) are always valid; otherwise
`if not self.signature` (None or empty) raises the missing-signature
`ValueError`; otherwise the signature is verified against the transaction
hash under the public key decoded from `from_address`, with both
`InvalidSignature` and `ValueError` caught and converted to `False`. -/
def Transaction.is_valid (verify : String → String → String → VerifyOutcome)
    (sha : String → String) (tx : Transaction) : Except Err Bool :=
  match tx.from_address with
  | none => .ok true
  | some addr =>
    match tx.signature with
    | none => .error .missingSignature
    | some sig =>
      if sig = "" then .error .missingSignature
      else
        match verify addr sig (tx.compute_hash sha) with
        | .ok => .ok true
        | .invalidSignature => .ok false
        | .malformedAddress => .ok false

/-- JSON rendering of a string (as produced by `json.dumps`). -/
def jsonStr (s : String) : String := "\"" ++ s ++ "\""

/-- JSON rendering of an optional string field: `None` serialises to
`null`, a present value to a quoted string (signatures go through
`default=str`). -/
def jsonOfOpt : Option String → String
  | none => "null"
  | some s => jsonStr s

/-- Source `json.dumps(tx.__dict__, default=str)` for one transaction: its four
fields in declaration order. -/
def jsonOfTx (tx : Transaction) : String :=
  "\x7b\"from_address\": " ++ jsonOfOpt tx.from_address ++
  ", \"to_address\": " ++ jsonStr tx.to_address ++
  ", \"amount\": " ++ toString tx.amount ++
  ", \"signature\": " ++ jsonOfOpt tx.signature ++ "\x7d"

/-- Source `json.dumps([tx.__dict__ for tx in transactions], default=str)`. -/
def jsonOfTxList (txs : List Transaction) : String :=
  "[" ++ String.intercalate ", " (txs.map jsonOfTx) ++ "]"

/-- Source `class Block`: transaction batch, predecessor hash, creation timestamp
in milliseconds, proof-of-work nonce (initially 1) and cached hash. -/
structure Block where
  transactions : List Transaction
  previous_hash : String
  timestamp : Nat
  nonce : Nat
  hash : String
deriving DecidableEq, Repr

/-- Source `Block.compute_hash`: SHA-256 of the JSON dump of the transaction list
concatenated with `previous_hash`, `str(nonce)` and `str(timestamp)`.
The cached `hash` field itself is not part of the hashed content. -/
def Block.compute_hash (sha : String → String) (b : Block) : String :=
  sha (jsonOfTxList b.transactions ++ b.previous_hash ++
       toString b.nonce ++ toString b.timestamp)

/-- Source `Block.__init__`: stores the batch and previous hash, takes the wall
clock (`now`, milliseconds) as an explicit input, sets `nonce = 1` and
immediately caches `compute_hash()`. -/
def Block.make (sha : String → String) (transactions : List Transaction)
    (previous_hash : String) (now : Nat) : Block :=
  let b : Block :=
    { transactions := transactions, previous_hash := previous_hash,
      timestamp := now, nonce := 1, hash := "" }
  { b with hash := b.compute_hash sha }

/-- Source `Block.get_answer`: the proof-of-work target prefix `"0" * difficulty`. -/
def Block.get_answer (difficulty : Nat) : String :=
  String.mk (List.replicate difficulty '0')

/-- The `for transaction in self.transactions` loop of
`Block.validate_transactions`: errors from `is_valid` propagate, the first
transaction with `is_valid() == False` makes the whole batch invalid. -/
def validateTxList (verify : String → String → String → VerifyOutcome)
    (sha : String → String) : List Transaction → Except Err Bool
  | [] => .ok true
  | tx :: rest =>
    match tx.is_valid verify sha with
    | .error e => .error e
    | .ok false => .ok false
    | .ok true => validateTxList verify sha rest

/-- Source `Block.validate_transactions`. -/
def Block.validate_transactions (verify : String → String → String → VerifyOutcome)
    (sha : String → String) (b : Block) : Except Err Bool :=
  validateTxList verify sha b.transactions

/-- The `while True` proof-of-work loop of `Block.mine`, with explicit
fuel (one unit per iteration; `none` = still running after `fuel`
iterations).  Each iteration recomputes the hash; if its `difficulty`-char
prefix differs from the target the nonce is incremented and the hash
recomputed before looping. -/
def mineLoop (sha : String → String) (difficulty : Nat) :
    Block → Nat → Option Block
  | _, 0 => none
  | b, fuel + 1 =>
    let b1 := { b with hash := b.compute_hash sha }
    if b1.hash.take difficulty ≠ Block.get_answer difficulty then
      let b2 := { b1 with nonce := b1.nonce + 1 }
      let b3 := { b2 with hash := b2.compute_hash sha }
      mineLoop sha difficulty b3 fuel
    else
      some b1

/-- Source `Block.mine`: first validates all contained transactions (raising the
tamper `ValueError` if any is invalid, and propagating the
missing-signature error), then runs the proof-of-work loop. -/
def Block.mine (verify : String → String → String → VerifyOutcome)
    (sha : String → String) (difficulty fuel : Nat) (b : Block) :
    Option (Except Err Block) :=
  match b.validate_transactions verify sha with
  | .error e => some (.error e)
  | .ok false => some (.error .invalidTransaction)
  | .ok true =>
    match mineLoop sha difficulty b fuel with
    | none => none
    | some b1 => some (.ok b1)

/-- Source `class Chain`: block list (index 0 is the genesis block), pending
transaction pool, miner reward (50) and difficulty. -/
structure Chain where
  chain : List Block
  transaction_pool : List Transaction
  miner_reward : Int
  difficulty : Nat
deriving DecidableEq, Repr

/-- Placeholder block used to totalise `chain[-1]`; the chain list is
never empty in any state the program constructs. -/
def defaultBlock : Block :=
  { transactions := [], previous_hash := "", timestamp := 0, nonce := 1, hash := "" }

/-- Source `Chain.big_bang`: the genesis block — empty batch, empty previous
hash. -/
def Chain.big_bang (sha : String → String) (now : Nat) : Block :=
  Block.make sha [] "" now

/-- Source `Chain.__init__`: `[big_bang()]`, empty pool, reward 50, the given
difficulty. -/
def Chain.init (sha : String → String) (now : Nat) (difficulty : Nat) : Chain :=
  { chain := [Chain.big_bang sha now], transaction_pool := [],
    miner_reward := 50, difficulty := difficulty }

/-- Source `Chain.set_difficulty`. -/
def Chain.set_difficulty (c : Chain) (difficulty : Nat) : Chain :=
  { c with difficulty := difficulty }

/-- Source `Chain.get_latest_block`: `self.chain[-1]`. -/
def Chain.get_latest_block (c : Chain) : Block :=
  c.chain.getLastD defaultBlock

/-- Source `Chain.add_transaction`: raises `invalidAddress` when
`not transaction.from_address or not transaction.to_address` (None or
empty), then `invalidTransaction` when `is_valid()` is `False`
(propagating the missing-signature error), otherwise appends the
transaction to the pool.  The pool is untouched on every raising path. -/
def Chain.add_transaction (verify : String → String → String → VerifyOutcome)
    (sha : String → String) (c : Chain) (tx : Transaction) :
    Chain × Except Err Unit :=
  if falsyOpt tx.from_address || tx.to_address == "" then
    (c, .error .invalidAddress)
  else
    match tx.is_valid verify sha with
    | .error e => (c, .error e)
    | .ok false => (c, .error .invalidTransaction)
    | .ok true =>
      ({ c with transaction_pool := c.transaction_pool ++ [tx] }, .ok ())

/-- Source `Chain.add_block_to_chain`: rewrites the new block's `previous_hash`
to the current head's hash, mines it, and appends it on success.  A
mining error leaves the chain object untouched. -/
def Chain.add_block_to_chain (verify : String → String → String → VerifyOutcome)
    (sha : String → String) (fuel : Nat) (c : Chain) (new_block : Block) :
    Option (Chain × Except Err Unit) :=
  let b := { new_block with previous_hash := c.get_latest_block.hash }
  match Block.mine verify sha c.difficulty fuel b with
  | none => none
  | some (.error e) => some (c, .error e)
  | some (.ok b1) => some ({ c with chain := c.chain ++ [b1] }, .ok ())

/-- The miner-reward transaction built by `Chain.mine_transaction_pool`:
`Transaction(None, miner_reward_address, self.miner_reward)`. -/
def rewardTx (addr : String) (amount : Int) : Transaction :=
  { from_address := none, to_address := addr, amount := amount, signature := none }

/-- Source `Chain.mine_transaction_pool`: appends the reward transaction to the
pool, builds a block from the whole pool and the head's hash, mines it,
and on success appends the block and empties the pool.  Note the pool
append happens before mining: a mining error leaves the reward
transaction in the pool. -/
def Chain.mine_transaction_pool (verify : String → String → String → VerifyOutcome)
    (sha : String → String) (fuel now : Nat) (c : Chain)
    (miner_reward_address : String) : Option (Chain × Except Err Unit) :=
  let c1 := { c with transaction_pool :=
                c.transaction_pool ++ [rewardTx miner_reward_address c.miner_reward] }
  let new_block := Block.make sha c1.transaction_pool c1.get_latest_block.hash now
  match Block.mine verify sha c1.difficulty fuel new_block with
  | none => none
  | some (.error e) => some (c1, .error e)
  | some (.ok b1) =>
    some ({ c1 with chain := c1.chain ++ [b1], transaction_pool := [] }, .ok ())

/-- The `for i in range(1, len(self.chain))` loop of
`Chain.validate_chain`, carried out over the predecessor and the list of
remaining blocks: transactions first, then the tamper check
`hash == compute_hash()`, then the link check
`previous_hash == previous_block.hash`; the first failure returns
`False`. -/
def validateFrom (verify : String → String → String → VerifyOutcome)
    (sha : String → String) : Block → List Block → Except Err Bool
  | _, [] => .ok true
  | prev, b :: rest =>
    match b.validate_transactions verify sha with
    | .error e => .error e
    | .ok false => .ok false
    | .ok true =>
      if b.hash ≠ b.compute_hash sha then .ok false
      else if b.previous_hash ≠ prev.hash then .ok false
      else validateFrom verify sha b rest

/-- Source `Chain.validate_chain`: a one-block chain is valid iff the genesis
block's stored hash matches its recomputed hash; otherwise every block
from index 1 on is checked in order. -/
def Chain.validate_chain (verify : String → String → String → VerifyOutcome)
    (sha : String → String) (c : Chain) : Except Err Bool :=
  match c.chain with
  | [] => .ok true
  | [g] => if g.hash ≠ g.compute_hash sha then .ok false else .ok true
  | g :: rest => validateFrom verify sha g rest
/-! ### The chain invariant and reachable states -/

/-- The spec's chain invariant, over the block list: the list is nonempty,
the genesis block has an empty `previous_hash`, every later block links to
its immediate predecessor's stored hash, every block's stored hash is its
recomputed hash, and every sender-present transaction in any block is
valid. -/
def BlocksInv (verify : String → String → String → VerifyOutcome)
    (sha : String → String) (l : List Block) : Prop :=
  l ≠ [] ∧
  (l.headD defaultBlock).previous_hash = "" ∧
  List.Chain' (fun a b => b.previous_hash = a.hash) l ∧
  (∀ b ∈ l, b.hash = Block.compute_hash sha b) ∧
  (∀ b ∈ l, ∀ tx ∈ b.transactions,
     tx.from_address ≠ none → tx.is_valid verify sha = .ok true)

/-- The chain invariant of a `Chain` state. -/
def ChainInv (verify : String → String → String → VerifyOutcome)
    (sha : String → String) (c : Chain) : Prop :=
  BlocksInv verify sha c.chain

/-- Chain states reachable from a freshly constructed `Chain` through the
three mutating entry points.  Terminating calls that raise still produce a
reachable state (the object survives the exception); a call whose mining
loop never terminates produces no state. -/
inductive Reachable (verify : String → String → String → VerifyOutcome)
    (sha : String → String) : Chain → Prop where
  | init (now difficulty : Nat) : Reachable verify sha (Chain.init sha now difficulty)
  | add_tx {c c' : Chain} {tx : Transaction} {r : Except Err Unit} :
      Reachable verify sha c →
      Chain.add_transaction verify sha c tx = (c', r) →
      Reachable verify sha c'
  | mine_pool {c c' : Chain} {fuel now : Nat} {addr : String} {r : Except Err Unit} :
      Reachable verify sha c →
      Chain.mine_transaction_pool verify sha fuel now c addr = some (c', r) →
      Reachable verify sha c'
  | add_block {c c' : Chain} {fuel : Nat} {b : Block} {r : Except Err Unit} :
      Reachable verify sha c →
      Chain.add_block_to_chain verify sha fuel c b = some (c', r) →
      Reachable verify sha c'


/-! ### Concrete instances used by witnesses and counterexamples -/

/-- Identity stand-in for the abstract SHA-256 parameter, used to
evaluate the model on concrete inputs. -/
def shaId : String → String := fun s => s

/-- Signing stand-in that always produces the signature "new". -/
def signNew : String → String := fun _ => "new"

/-- Verification stand-in that always succeeds. -/
def verifyOk : String → String → String → VerifyOutcome := fun _ _ _ => .ok

/-- Verification stand-in that always reports a signature mismatch. -/
def verifyBad : String → String → String → VerifyOutcome := fun _ _ _ => .invalidSignature

/-- A coinbase transaction (absent sender). -/
def txCoinbase : Transaction :=
  { from_address := none, to_address := "mm", amount := 50, signature := none }

/-- A signed transfer whose signature `verifyBad` rejects. -/
def txBadSig : Transaction :=
  { from_address := some "aa", to_address := "bb", amount := 1, signature := some "sg" }

/-- An already-signed transfer (signature "old"). -/
def txSigned : Transaction :=
  { from_address := some "aa", to_address := "bb", amount := 1, signature := some "old" }

/-- A sender-present transfer with no signature. -/
def txUnsigned : Transaction :=
  { from_address := some "aa", to_address := "bb", amount := 1, signature := none }

/-- A signed transfer of a negative amount. -/
def txNeg : Transaction :=
  { from_address := some "aa", to_address := "bb", amount := -5, signature := some "sg" }

/-- A freshly constructed chain at difficulty 0. -/
def cInit : Chain := Chain.init shaId 0 0

/-- A chain whose pool holds one transaction that fails verification. -/
def cPoolBad : Chain :=
  { chain := [Chain.big_bang shaId 0], transaction_pool := [txBadSig],
    miner_reward := 50, difficulty := 0 }

/-- The state `cPoolBad` reaches after a failed `mine_transaction_pool`:
the reward transaction is left in the pool. -/
def cPoolBadAfter : Chain :=
  { cPoolBad with transaction_pool := [txBadSig, rewardTx "mm" 50] }

/-- A transactionless block whose stored hash was tampered with. -/
def blockTampered : Block :=
  { transactions := [], previous_hash := "", timestamp := 0, nonce := 1,
    hash := "tampered" }

/-- A block holding one unsigned sender-present transaction. -/
def blockUnsigned : Block :=
  { transactions := [txUnsigned], previous_hash := "", timestamp := 0, nonce := 1,
    hash := "" }

/-- A transactionless block correctly linked to the genesis block and
passing every check. -/
def goodBlock : Block := Block.make shaId [] (Chain.big_bang shaId 0).hash 7

/-- A chain whose unsigned sender-present transaction sits in the second
non-genesis block, behind a block that passes all three checks — so
validation reaches the unsigned transaction beyond the first validated
block. -/
def cLate : Chain :=
  { chain := [Chain.big_bang shaId 0, goodBlock, blockUnsigned],
    transaction_pool := [], miner_reward := 50, difficulty := 0 }

/-- A chain whose block 1 fails the tamper check while block 2 holds an
unsigned sender-present transaction that validation never reaches. -/
def cShortCircuit : Chain :=
  { chain := [Chain.big_bang shaId 0, blockTampered, blockUnsigned],
    transaction_pool := [], miner_reward := 50, difficulty := 0 }

/-- An empty block to mine at difficulty 0. -/
def blockW : Block := Block.make shaId [] "" 0

/-- The result of mining `blockW` at difficulty 0. -/
def blockWMined : Block := { blockW with hash := Block.compute_hash shaId blockW }

/-- The block built by `mine_transaction_pool` on `cInit` (reward only). -/
def blockReward : Block :=
  Block.make shaId [rewardTx "mm" 50] (Chain.big_bang shaId 0).hash 0

/-- Result of mining `blockReward` at difficulty 0. -/
def blockRewardMined : Block :=
  { blockReward with hash := Block.compute_hash shaId blockReward }

/-- The chain `cInit` becomes after successfully mining its empty pool. -/
def cMined : Chain :=
  { chain := [Chain.big_bang shaId 0, blockRewardMined], transaction_pool := [],
    miner_reward := 50, difficulty := 0 }

/-- The chain `cInit` becomes after submitting `txNeg`. -/
def cNegPool : Chain := { cInit with transaction_pool := [txNeg] }

/-- The block built by `mine_transaction_pool` on `cNegPool`. -/
def blockNeg : Block :=
  Block.make shaId [txNeg, rewardTx "mm" 50] (Chain.big_bang shaId 0).hash 0

/-- Result of mining `blockNeg` at difficulty 0. -/
def blockNegMined : Block :=
  { blockNeg with hash := Block.compute_hash shaId blockNeg }

/-- The chain `cNegPool` becomes after successfully mining its pool. -/
def cNegMined : Chain :=
  { chain := [Chain.big_bang shaId 0, blockNegMined], transaction_pool := [],
    miner_reward := 50, difficulty := 0 }

/-! ### Basic facts about blocks, mining and transaction validation -/

/-- The cached `hash` field is not part of the hashed content. -/
theorem compute_hash_set_hash (sha : String → String) (b : Block) (x : String) :
    Block.compute_hash sha { b with hash := x } = Block.compute_hash sha b := rfl

/-- A freshly constructed block caches exactly its recomputed hash. -/
theorem Block.make_hash_eq (sha : String → String) (txs : List Transaction)
    (prev : String) (now : Nat) :
    (Block.make sha txs prev now).hash =
      Block.compute_hash sha (Block.make sha txs prev now) := rfl

/-- When the mining loop terminates, the resulting block carries the same
transactions, predecessor hash and timestamp as the input, its cached hash
is its recomputed hash, and that hash meets the difficulty target. -/
theorem mineLoop_eq_some (sha : String → String) (difficulty : Nat) :
    ∀ (fuel : Nat) (b b1 : Block), mineLoop sha difficulty b fuel = some b1 →
      b1.transactions = b.transactions ∧ b1.previous_hash = b.previous_hash ∧
      b1.timestamp = b.timestamp ∧ b1.hash = Block.compute_hash sha b1 ∧
      b1.hash.take difficulty = Block.get_answer difficulty := by
  intro fuel
  induction fuel with
  | zero => intro b b1 h; simp [mineLoop] at h
  | succ n ih =>
    intro b b1 h
    rw [mineLoop] at h
    split at h
    · have h1 := ih _ _ h
      exact ⟨h1.1, h1.2.1, h1.2.2.1, h1.2.2.2.1, h1.2.2.2.2⟩
    · rename_i hcond
      rw [not_not] at hcond
      cases h
      exact ⟨rfl, rfl, rfl, rfl, hcond⟩

/-- At difficulty 0 the very first computed hash already matches the empty
target, so the loop stops in its first iteration without touching the
nonce. -/
theorem mineLoop_zero_difficulty (sha : String → String) (b : Block) (fuel : Nat)
    (hf : 0 < fuel) :
    mineLoop sha 0 b fuel = some { b with hash := Block.compute_hash sha b } := by
  cases fuel with
  | zero => omega
  | succ n =>
    rw [mineLoop]
    have h0 : (Block.compute_hash sha b).take 0 = Block.get_answer 0 := rfl
    simp [h0]

/-- The transaction-list sweep succeeds with `True` exactly when every
transaction in the list is individually valid. -/
theorem validateTxList_ok_true_iff (verify : String → String → String → VerifyOutcome)
    (sha : String → String) (txs : List Transaction) :
    validateTxList verify sha txs = .ok true ↔
      ∀ tx ∈ txs, tx.is_valid verify sha = .ok true := by
  induction txs with
  | nil => simp [validateTxList]
  | cons tx rest ih =>
    rw [validateTxList, List.forall_mem_cons]
    cases h : tx.is_valid verify sha with
    | error e => simp [h]
    | ok bv => cases bv <;> simp [h, ih]

/-- Source `Block.mine` returns a mined block exactly when the transaction sweep
succeeded with `True` and the proof-of-work loop converged. -/
theorem Block.mine_eq_ok (verify : String → String → String → VerifyOutcome)
    (sha : String → String) (difficulty fuel : Nat) (b b1 : Block)
    (h : Block.mine verify sha difficulty fuel b = some (.ok b1)) :
    b.validate_transactions verify sha = .ok true ∧
      mineLoop sha difficulty b fuel = some b1 := by
  rw [Block.mine] at h
  cases hv : b.validate_transactions verify sha with
  | error e => rw [hv] at h; simp at h
  | ok bv =>
    cases bv
    · rw [hv] at h; simp at h
    · rw [hv] at h
      cases hm : mineLoop sha difficulty b fuel with
      | none => rw [hm] at h; simp at h
      | some b2 => rw [hm] at h; simp at h; exact ⟨rfl, by rw [h]⟩

/-- Source `is_valid` raises exactly in the missing-signature situation: a present
sender together with a `None`-or-empty signature. -/
theorem is_valid_eq_error_iff (verify : String → String → String → VerifyOutcome)
    (sha : String → String) (tx : Transaction) (e : Err) :
    tx.is_valid verify sha = .error e ↔
      e = .missingSignature ∧ tx.from_address ≠ none ∧ falsyOpt tx.signature := by
  rw [Transaction.is_valid]
  cases tx.from_address with
  | none => simp
  | some addr =>
    cases hs : tx.signature with
    | none => simp [falsyOpt, hs, eq_comm]
    | some sig =>
      by_cases h0 : sig = ""
      · simp [h0, falsyOpt, hs, eq_comm]
      · simp only [if_neg h0, falsyOpt, hs]
        cases verify addr sig (tx.compute_hash sha) <;> simp [h0]

/-- A transaction whose sender is present and whose signature is neither
`None` nor empty never makes `is_valid` raise. -/
theorem is_valid_ne_error (verify : String → String → String → VerifyOutcome)
    (sha : String → String) (tx : Transaction)
    (h : tx.from_address ≠ none → ¬ falsyOpt tx.signature) :
    ∃ bv, tx.is_valid verify sha = .ok bv := by
  cases hv : tx.is_valid verify sha with
  | error e =>
    rw [is_valid_eq_error_iff] at hv
    exact absurd (h hv.2.1) (by simp [hv.2.2])
  | ok bv => exact ⟨bv, rfl⟩

/-- An error from `is_valid` on some transaction propagates through the
validation sweep once every earlier transaction validated to `True`. -/
theorem validateTxList_append_error (verify : String → String → String → VerifyOutcome)
    (sha : String → String) (pre post : List Transaction) (tx : Transaction) (e : Err)
    (hpre : ∀ t ∈ pre, t.is_valid verify sha = .ok true)
    (htx : tx.is_valid verify sha = .error e) :
    validateTxList verify sha (pre ++ tx :: post) = .error e := by
  induction pre with
  | nil => rw [List.nil_append, validateTxList, htx]
  | cons p rest ih =>
    rw [List.cons_append, validateTxList, hpre p (by simp)]
    exact ih fun t ht => hpre t (by simp [ht])

/-- The validation sweep returns a boolean (never raises) when every
sender-present transaction in the list carries a nonempty signature. -/
theorem validateTxList_ne_error (verify : String → String → String → VerifyOutcome)
    (sha : String → String) (txs : List Transaction)
    (h : ∀ tx ∈ txs, tx.from_address ≠ none → ¬ falsyOpt tx.signature) :
    ∃ bv, validateTxList verify sha txs = .ok bv := by
  induction txs with
  | nil => exact ⟨true, rfl⟩
  | cons tx rest ih =>
    obtain ⟨bv, hbv⟩ := is_valid_ne_error verify sha tx (h tx (by simp))
    rw [validateTxList, hbv]
    cases bv
    · exact ⟨false, rfl⟩
    · exact ih fun t ht hp => h t (by simp [ht]) hp

/-- Index-wise characterisation of the validation loop: starting from a
predecessor `prev`, the sweep over `bs` answers `True` exactly when every
block of `bs` passes all three checks — transactions valid, stored hash
equal to the recomputed hash, and `previous_hash` equal to the stored hash
of the block one position earlier in `prev :: bs`. -/
theorem validateFrom_ok_true_iff (verify : String → String → String → VerifyOutcome)
    (sha : String → String) :
    ∀ (bs : List Block) (prev : Block),
      validateFrom verify sha prev bs = .ok true ↔
        ∀ i (h : i < bs.length),
          (bs.get ⟨i, h⟩).validate_transactions verify sha = .ok true ∧
          (bs.get ⟨i, h⟩).hash = Block.compute_hash sha (bs.get ⟨i, h⟩) ∧
          (bs.get ⟨i, h⟩).previous_hash =
            ((prev :: bs).get ⟨i, Nat.lt_succ_of_lt h⟩).hash := by
  intro bs
  induction bs with
  | nil =>
    intro prev
    constructor
    · intro _ i hi; exact absurd hi (by simp)
    · intro _; rfl
  | cons b rest ih =>
    intro prev
    rw [validateFrom]
    cases hv : b.validate_transactions verify sha with
    | error e =>
      constructor
      · intro h; exact absurd h (by simp)
      · intro h
        have h0 := (h 0 (by simp)).1
        simp [hv] at h0
    | ok bv =>
      cases bv with
      | false =>
        constructor
        · intro h; exact absurd h (by simp)
        · intro h
          have h0 := (h 0 (by simp)).1
          simp [hv] at h0
      | true =>
        by_cases hh : b.hash = Block.compute_hash sha b
        · by_cases hp : b.previous_hash = prev.hash
          · rw [if_neg (not_not.mpr hh), if_neg (not_not.mpr hp), ih b]
            constructor
            · intro h i hi
              cases i with
              | zero => exact ⟨hv, hh, hp⟩
              | succ j => exact h j (by simpa using hi)
            · intro h j hj
              exact h (j + 1) (by simpa using hj)
          · rw [if_neg (not_not.mpr hh), if_pos hp]
            constructor
            · intro h; exact absurd h (by simp)
            · intro h
              have h0 := (h 0 (by simp)).2.2
              simp at h0
              exact absurd h0 hp
        · rw [if_pos hh]
          constructor
          · intro h; exact absurd h (by simp)
          · intro h
            have h0 := (h 0 (by simp)).2.1
            simp at h0
            exact absurd h0 hh

/-- Appending a block that links to the current last block, caches its
recomputed hash and carries only valid sender-present transactions
preserves the invariant. -/
theorem BlocksInv.append {verify : String → String → String → VerifyOutcome}
    {sha : String → String} {l : List Block} (hinv : BlocksInv verify sha l)
    (b : Block)
    (hprev : b.previous_hash = (l.getLastD defaultBlock).hash)
    (hhash : b.hash = Block.compute_hash sha b)
    (htx : ∀ tx ∈ b.transactions,
      tx.from_address ≠ none → tx.is_valid verify sha = .ok true) :
    BlocksInv verify sha (l ++ [b]) := by
  obtain ⟨hne, hhead, hchain, hhashes, htxs⟩ := hinv
  refine ⟨by simp, ?_, ?_, ?_, ?_⟩
  · rw [List.headD_eq_head?, List.head?_append_of_ne_nil _ hne, ← List.headD_eq_head?]
    exact hhead
  · rw [List.chain'_append]
    refine ⟨hchain, List.chain'_singleton b, ?_⟩
    intro x hx y hy
    simp only [List.head?_cons, Option.mem_def, Option.some.injEq] at hy
    subst hy
    rw [Option.mem_def] at hx
    have hx' : l.getLastD defaultBlock = x := by
      rw [List.getLastD_eq_getLast?, hx]; rfl
    rw [hprev, hx']
  · intro bb hbb
    rcases List.mem_append.mp hbb with hmem | hmem
    · exact hhashes bb hmem
    · simp only [List.mem_singleton] at hmem; subst hmem; exact hhash
  · intro bb hbb tx htxm hfrom
    rcases List.mem_append.mp hbb with hmem | hmem
    · exact htxs bb hmem tx htxm hfrom
    · simp only [List.mem_singleton] at hmem; subst hmem; exact htx tx htxm hfrom

/-- Exhaustive description of one `add_transaction` call: either it raises
and leaves the state untouched, or it appends the transaction to the
pool. -/
theorem add_transaction_cases (verify : String → String → String → VerifyOutcome)
    (sha : String → String) (c : Chain) (tx : Transaction) (c' : Chain)
    (r : Except Err Unit)
    (h : Chain.add_transaction verify sha c tx = (c', r)) :
    (∃ e, r = .error e ∧ c' = c) ∨
    (r = .ok () ∧ c' = { c with transaction_pool := c.transaction_pool ++ [tx] }) := by
  rw [Chain.add_transaction] at h
  split at h
  · obtain ⟨h1, h2⟩ := Prod.mk.injEq .. ▸ h
    exact Or.inl ⟨.invalidAddress, h2.symm, h1.symm⟩
  · split at h
    · rename_i e _
      obtain ⟨h1, h2⟩ := Prod.mk.injEq .. ▸ h
      exact Or.inl ⟨e, h2.symm, h1.symm⟩
    · obtain ⟨h1, h2⟩ := Prod.mk.injEq .. ▸ h
      exact Or.inl ⟨.invalidTransaction, h2.symm, h1.symm⟩
    · obtain ⟨h1, h2⟩ := Prod.mk.injEq .. ▸ h
      exact Or.inr ⟨h2.symm, h1.symm⟩

/-- Exhaustive description of one terminating `mine_transaction_pool`
call: either mining raised and the state kept the old blocks but gained
the reward transaction at the end of the pool, or a freshly mined block
was appended and the pool was cleared. -/
theorem mine_transaction_pool_cases (verify : String → String → String → VerifyOutcome)
    (sha : String → String) (fuel now : Nat) (c : Chain) (addr : String)
    (c' : Chain) (r : Except Err Unit)
    (h : Chain.mine_transaction_pool verify sha fuel now c addr = some (c', r)) :
    (∃ e, r = .error e ∧ c'.chain = c.chain ∧
       c'.transaction_pool = c.transaction_pool ++ [rewardTx addr c.miner_reward] ∧
       c'.miner_reward = c.miner_reward ∧ c'.difficulty = c.difficulty) ∨
    (∃ b1, r = .ok () ∧
       Block.mine verify sha c.difficulty fuel
         (Block.make sha (c.transaction_pool ++ [rewardTx addr c.miner_reward])
           c.get_latest_block.hash now) = some (.ok b1) ∧
       c'.chain = c.chain ++ [b1] ∧ c'.transaction_pool = [] ∧
       c'.miner_reward = c.miner_reward ∧ c'.difficulty = c.difficulty) := by
  simp only [Chain.mine_transaction_pool, Chain.get_latest_block] at h
  cases hm : Block.mine verify sha c.difficulty fuel
      (Block.make sha (c.transaction_pool ++ [rewardTx addr c.miner_reward])
        (c.chain.getLastD defaultBlock).hash now) with
  | none => rw [hm] at h; exact absurd h (by simp)
  | some res =>
    cases res with
    | error e =>
      rw [hm] at h
      simp only [Option.some.injEq, Prod.mk.injEq] at h
      obtain ⟨h1, h2⟩ := h
      exact Or.inl ⟨e, h2.symm, by rw [← h1], by rw [← h1], by rw [← h1], by rw [← h1]⟩
    | ok b1 =>
      rw [hm] at h
      simp only [Option.some.injEq, Prod.mk.injEq] at h
      obtain ⟨h1, h2⟩ := h
      exact Or.inr ⟨b1, h2.symm, hm, by rw [← h1], by rw [← h1], by rw [← h1], by rw [← h1]⟩

/-- Exhaustive description of one terminating `add_block_to_chain` call:
either mining raised and the chain object is untouched, or the mined block
was appended. -/
theorem add_block_to_chain_cases (verify : String → String → String → VerifyOutcome)
    (sha : String → String) (fuel : Nat) (c : Chain) (b : Block)
    (c' : Chain) (r : Except Err Unit)
    (h : Chain.add_block_to_chain verify sha fuel c b = some (c', r)) :
    (∃ e, r = .error e ∧ c' = c) ∨
    (∃ b1, r = .ok () ∧
       Block.mine verify sha c.difficulty fuel
         { b with previous_hash := c.get_latest_block.hash } = some (.ok b1) ∧
       c'.chain = c.chain ++ [b1] ∧ c'.transaction_pool = c.transaction_pool ∧
       c'.miner_reward = c.miner_reward ∧ c'.difficulty = c.difficulty) := by
  simp only [Chain.add_block_to_chain] at h
  cases hm : Block.mine verify sha c.difficulty fuel
      { b with previous_hash := c.get_latest_block.hash } with
  | none => rw [hm] at h; exact absurd h (by simp)
  | some res =>
    cases res with
    | error e =>
      rw [hm] at h
      simp only [Option.some.injEq, Prod.mk.injEq] at h
      obtain ⟨h1, h2⟩ := h
      exact Or.inl ⟨e, h2.symm, h1.symm⟩
    | ok b1 =>
      rw [hm] at h
      simp only [Option.some.injEq, Prod.mk.injEq] at h
      obtain ⟨h1, h2⟩ := h
      refine Or.inr ⟨b1, h2.symm, ?_, by rw [← h1], by rw [← h1], by rw [← h1], by rw [← h1]⟩
      rfl

/-- A sender-absent (coinbase) transaction is unconditionally valid. -/
theorem is_valid_coinbase (verify : String → String → String → VerifyOutcome)
    (sha : String → String) (tx : Transaction) (h : tx.from_address = none) :
    tx.is_valid verify sha = .ok true := by
  rw [Transaction.is_valid, h]

/-- Every reachable chain state satisfies the chain invariant. -/
theorem chainInv_of_reachable {verify : String → String → String → VerifyOutcome}
    {sha : String → String} {c : Chain} (h : Reachable verify sha c) :
    ChainInv verify sha c := by
  induction h with
  | init now difficulty =>
    refine ⟨by simp [Chain.init], rfl, List.chain'_singleton _, ?_, ?_⟩
    · intro b hb
      simp only [Chain.init, List.mem_singleton] at hb
      subst hb; rfl
    · intro b hb tx htx
      simp only [Chain.init, List.mem_singleton] at hb
      subst hb
      exact absurd htx (List.not_mem_nil tx)
  | add_tx _ heq ih =>
    rcases add_transaction_cases _ _ _ _ _ _ heq with ⟨e, _, hc⟩ | ⟨_, hc⟩ <;>
      (subst hc; exact ih)
  | mine_pool _ heq ih =>
    rcases mine_transaction_pool_cases _ _ _ _ _ _ _ _ heq with
      ⟨e, _, hchain, _, _, _⟩ | ⟨b1, _, hmine, hchain, _, _, _⟩
    · show BlocksInv _ _ _
      rw [hchain]; exact ih
    · obtain ⟨hval, hloop⟩ := Block.mine_eq_ok _ _ _ _ _ _ hmine
      obtain ⟨htxs, hprev, _, hhash, _⟩ := mineLoop_eq_some _ _ _ _ _ hloop
      show BlocksInv _ _ _
      rw [hchain]
      refine BlocksInv.append ih b1 hprev hhash ?_
      intro tx htxm _
      rw [htxs] at htxm
      exact (validateTxList_ok_true_iff _ _ _).mp hval tx htxm
  | add_block _ heq ih =>
    rcases add_block_to_chain_cases _ _ _ _ _ _ _ heq with
      ⟨e, _, hc⟩ | ⟨b1, _, hmine, hchain, _, _, _⟩
    · subst hc; exact ih
    · obtain ⟨hval, hloop⟩ := Block.mine_eq_ok _ _ _ _ _ _ hmine
      obtain ⟨htxs, hprev, _, hhash, _⟩ := mineLoop_eq_some _ _ _ _ _ hloop
      show BlocksInv _ _ _
      rw [hchain]
      refine BlocksInv.append ih b1 hprev hhash ?_
      intro tx htxm _
      rw [htxs] at htxm
      exact (validateTxList_ok_true_iff _ _ _).mp hval tx htxm

/-- A chain satisfying the invariant passes full-chain validation. -/
theorem validate_chain_of_inv (verify : String → String → String → VerifyOutcome)
    (sha : String → String) (c : Chain) (h : ChainInv verify sha c) :
    Chain.validate_chain verify sha c = .ok true := by
  obtain ⟨l, pool, rew, diff⟩ := c
  obtain ⟨hne, hhead, hchain, hhashes, htxs⟩ := h
  simp only at hne hhead hchain hhashes htxs
  cases l with
  | nil => exact absurd rfl hne
  | cons g rest =>
    cases rest with
    | nil =>
      show (if g.hash ≠ Block.compute_hash sha g then _ else _) = _
      rw [if_neg (not_not.mpr (hhashes g (by simp)))]
    | cons b rest1 =>
      show validateFrom verify sha g (b :: rest1) = .ok true
      rw [validateFrom_ok_true_iff]
      intro i hi
      have hmem : (b :: rest1).get ⟨i, hi⟩ ∈ g :: b :: rest1 :=
        List.mem_cons_of_mem g (List.get_mem _ i hi)
      refine ⟨?_, hhashes _ hmem, ?_⟩
      · rw [Block.validate_transactions, validateTxList_ok_true_iff]
        intro tx htxm
        cases hfrom : tx.from_address with
        | none => exact is_valid_coinbase verify sha tx hfrom
        | some a =>
          exact htxs _ hmem tx htxm (by rw [hfrom]; exact Option.some_ne_none a)
      · have := List.chain'_iff_get.mp hchain i (by simpa using hi)
        exact this

/-- The chain-validation loop returns a boolean (never raises) when every
sender-present transaction in the swept blocks carries a nonempty
signature. -/
theorem validateFrom_ne_error (verify : String → String → String → VerifyOutcome)
    (sha : String → String) :
    ∀ (bs : List Block) (prev : Block),
      (∀ b ∈ bs, ∀ tx ∈ b.transactions,
         tx.from_address ≠ none → ¬ falsyOpt tx.signature) →
      ∃ bv, validateFrom verify sha prev bs = .ok bv := by
  intro bs
  induction bs with
  | nil => exact fun prev _ => ⟨true, rfl⟩
  | cons b rest ih =>
    intro prev hs
    obtain ⟨bv, hbv⟩ := validateTxList_ne_error verify sha b.transactions (hs b (by simp))
    have hbv2 : b.validate_transactions verify sha = .ok bv := hbv
    rw [validateFrom, hbv2]
    cases bv
    · exact ⟨false, rfl⟩
    · by_cases hh : b.hash = Block.compute_hash sha b
      · by_cases hp : b.previous_hash = prev.hash
        · rw [if_neg (not_not.mpr hh), if_neg (not_not.mpr hp)]
          exact ih b fun bb hbb => hs bb (by simp [hbb])
        · exact ⟨false, by rw [if_neg (not_not.mpr hh), if_pos hp]⟩
      · exact ⟨false, by rw [if_pos hh]⟩

/-- An error raised by the transaction sweep of some block propagates out
of the chain-validation loop across any prefix of blocks that pass all
three checks: the sweep walks the passing prefix and then surfaces the
error of the first failing block. -/
theorem validateFrom_reaches_error (verify : String → String → String → VerifyOutcome)
    (sha : String → String) :
    ∀ (good : List Block) (prev b : Block) (rest : List Block) (e : Err),
      (∀ i (h : i < good.length),
         (good.get ⟨i, h⟩).validate_transactions verify sha = .ok true ∧
         (good.get ⟨i, h⟩).hash = Block.compute_hash sha (good.get ⟨i, h⟩) ∧
         (good.get ⟨i, h⟩).previous_hash =
           ((prev :: good).get ⟨i, Nat.lt_succ_of_lt h⟩).hash) →
      b.validate_transactions verify sha = .error e →
      validateFrom verify sha prev (good ++ b :: rest) = .error e := by
  intro good
  induction good with
  | nil =>
    intro prev b rest e _ hb
    rw [List.nil_append, validateFrom, hb]
  | cons g1 gs ih =>
    intro prev b rest e hgood hb
    have h0 := hgood 0 (by simp)
    have h1 : g1.validate_transactions verify sha = .ok true := h0.1
    have h2 : g1.hash = Block.compute_hash sha g1 := h0.2.1
    have h3 : g1.previous_hash = prev.hash := h0.2.2
    rw [List.cons_append, validateFrom, h1, if_neg (not_not.mpr h2),
        if_neg (not_not.mpr h3)]
    exact ih g1 b rest e (fun i hi => hgood (i + 1) (by simpa using hi)) hb

/-! ### The claims -/

/-- C4, counterexample: the transaction `txSigned` already carries the
signature "old", yet a second `sign` call returns normally instead of
failing with a `PreconditionError` — no such check exists in the code —
and silently overwrites the stored signature. -/
theorem C4_counterexample_resign_succeeds :
    txSigned.signature = some "old" ∧
    Transaction.sign shaId signNew txSigned =
      .ok { txSigned with signature := some "new" } :=
  ⟨rfl, rfl⟩

/-- C4, amended: `sign` performs no already-signed precondition check:
for every transaction, signed or not, it returns normally, storing the
signature computed over the transaction hash and overwriting any
signature already present; all other fields are unchanged. -/
theorem C4_amended_sign_always_overwrites (sha signFn : String → String)
    (tx : Transaction) :
    Transaction.sign sha signFn tx =
      .ok { tx with signature := some (signFn (Transaction.compute_hash sha tx)) } :=
  rfl

/-- C5: `is_valid` returns `True` unconditionally when the sender is
absent; fails with the missing-signature error when the sender is present
but the signature is absent (`None` or empty, matching Python
truthiness); and otherwise returns a boolean — `True` exactly when the
ECDSA verification of the signature over `compute_hash()` under the key
decoded from the sender succeeds, and `False` rather than an error on a
signature mismatch or a malformed address. -/
theorem C5_is_valid_spec (verify : String → String → String → VerifyOutcome)
    (sha : String → String) (tx : Transaction) :
    (tx.from_address = none → tx.is_valid verify sha = .ok true) ∧
    (tx.from_address ≠ none → falsyOpt tx.signature →
       tx.is_valid verify sha = .error .missingSignature) ∧
    (∀ addr sig, tx.from_address = some addr → tx.signature = some sig → sig ≠ "" →
       (verify addr sig (tx.compute_hash sha) = .ok →
          tx.is_valid verify sha = .ok true) ∧
       (verify addr sig (tx.compute_hash sha) ≠ .ok →
          tx.is_valid verify sha = .ok false)) := by
  refine ⟨fun h => is_valid_coinbase verify sha tx h, fun h1 h2 => ?_, ?_⟩
  · rw [is_valid_eq_error_iff]
    exact ⟨rfl, h1, h2⟩
  · intro addr sig haddr hsig hne
    simp only [Transaction.is_valid, haddr, hsig]
    rw [if_neg hne]
    constructor
    · intro hv; rw [hv]
    · intro hv
      cases hvv : verify addr sig (tx.compute_hash sha) with
      | ok => exact absurd hvv hv
      | invalidSignature => rfl
      | malformedAddress => rfl

/-- C5, witness: the coinbase fixture is unconditionally valid. -/
theorem C5_witness :
    txCoinbase.from_address = none ∧
    Transaction.is_valid verifyOk shaId txCoinbase = .ok true :=
  ⟨rfl, (C5_is_valid_spec verifyOk shaId txCoinbase).1 rfl⟩

/-- C6: whenever `mine` returns a block, the first `difficulty`
characters of its hash are all `'0'` and its cached hash equals the hash
recomputed over the returned block's fields; and at difficulty 0 the
proof-of-work loop stops in its very first iteration, returning the first
computed hash with the nonce untouched. -/
theorem C6_mine_postcondition (verify : String → String → String → VerifyOutcome)
    (sha : String → String) (difficulty fuel : Nat) (b b1 : Block) :
    (Block.mine verify sha difficulty fuel b = some (.ok b1) →
       b1.hash.take difficulty = Block.get_answer difficulty ∧
       b1.hash = Block.compute_hash sha b1) ∧
    (0 < fuel →
       mineLoop sha 0 b fuel = some { b with hash := Block.compute_hash sha b }) := by
  constructor
  · intro h
    obtain ⟨_, hloop⟩ := Block.mine_eq_ok _ _ _ _ _ _ h
    obtain ⟨_, _, _, hhash, htarget⟩ := mineLoop_eq_some _ _ _ _ _ hloop
    exact ⟨htarget, hhash⟩
  · exact mineLoop_zero_difficulty sha b fuel

/-- C6, witness: mining the empty block at difficulty 0 with one unit of
fuel succeeds at once. -/
theorem C6_witness :
    (blockWMined.hash.take 0 = Block.get_answer 0 ∧
     blockWMined.hash = Block.compute_hash shaId blockWMined) ∧
    mineLoop shaId 0 blockW 1 =
      some { blockW with hash := Block.compute_hash shaId blockW } :=
  ⟨(C6_mine_postcondition verifyOk shaId 0 1 blockW blockWMined).1 rfl,
   (C6_mine_postcondition verifyOk shaId 0 1 blockW blockWMined).2 (by decide)⟩

/-- C8: `add_transaction` fails with the invalid-address error whenever
the sender or the recipient is absent or empty — rejecting coinbase
transactions in particular — and with the invalid-transaction error
whenever `is_valid()` answers `False`; otherwise it appends the
transaction at the end of the pool, and on every failing path the pool is
unchanged. -/
theorem C8_add_transaction_spec (verify : String → String → String → VerifyOutcome)
    (sha : String → String) (c : Chain) (tx : Transaction) :
    ((tx.from_address = none ∨ tx.from_address = some "" ∨ tx.to_address = "") →
       Chain.add_transaction verify sha c tx = (c, .error .invalidAddress)) ∧
    (tx.from_address ≠ none → tx.from_address ≠ some "" → tx.to_address ≠ "" →
       (tx.is_valid verify sha = .ok false →
          Chain.add_transaction verify sha c tx = (c, .error .invalidTransaction)) ∧
       (tx.is_valid verify sha = .ok true →
          Chain.add_transaction verify sha c tx =
            ({ c with transaction_pool := c.transaction_pool ++ [tx] }, .ok ()))) ∧
    (∀ c' e, Chain.add_transaction verify sha c tx = (c', .error e) →
       c'.transaction_pool = c.transaction_pool) := by
  refine ⟨?_, ?_, ?_⟩
  · intro h
    have hcond : (falsyOpt tx.from_address || tx.to_address == "") = true := by
      rcases h with h | h | h <;> simp [falsyOpt, h]
    rw [Chain.add_transaction, if_pos hcond]
  · intro h1 h2 h3
    have hcond : (falsyOpt tx.from_address || tx.to_address == "") = false := by
      cases hf : tx.from_address with
      | none => exact absurd hf h1
      | some a =>
        have ha : a ≠ "" := fun hh => h2 (by rw [hf, hh])
        simp [falsyOpt, ha, h3]
    constructor
    · intro hval
      rw [Chain.add_transaction, if_neg (by simp [hcond]), hval]
    · intro hval
      rw [Chain.add_transaction, if_neg (by simp [hcond]), hval]
  · intro c' e h
    rcases add_transaction_cases _ _ _ _ _ _ h with ⟨e1, _, hc⟩ | ⟨hr, _⟩
    · rw [hc]
    · exact absurd hr (by simp)

/-- C8, witness: submitting the coinbase fixture (absent sender) to a
fresh chain fails with the invalid-address error and leaves the state
untouched. -/
theorem C8_witness :
    Chain.add_transaction verifyOk shaId cInit txCoinbase =
      (cInit, .error .invalidAddress) :=
  (C8_add_transaction_spec verifyOk shaId cInit txCoinbase).1 (Or.inl rfl)

/-- C3, counterexample: `cPoolBad` has one pooled transaction, which is
invalid; `mine_transaction_pool` raises, yet afterwards the pool holds
two transactions — the reward transaction was appended before mining, so
the failing call did mutate the pool. -/
theorem C3_counterexample_pool_mutated :
    (Chain.mine_transaction_pool verifyBad shaId 5 0 cPoolBad "mm").map
        (fun p => (p.1.transaction_pool.length, p.2)) =
      some (2, .error .invalidTransaction) ∧
    cPoolBad.transaction_pool.length = 1 :=
  ⟨rfl, rfl⟩

/-- C3, amended: `add_transaction` mutates nothing when it raises, and
`add_block_to_chain` leaves the chain object untouched when mining
raises; but a `mine_transaction_pool` call that raises leaves the blocks
unchanged while the pending pool HAS been mutated: it gains exactly the
coinbase reward transaction appended before mining started. -/
theorem C3_amended_failure_atomicity (verify : String → String → String → VerifyOutcome)
    (sha : String → String) (c : Chain) :
    (∀ tx c' e, Chain.add_transaction verify sha c tx = (c', .error e) → c' = c) ∧
    (∀ fuel b c' e,
       Chain.add_block_to_chain verify sha fuel c b = some (c', .error e) → c' = c) ∧
    (∀ fuel now addr c' e,
       Chain.mine_transaction_pool verify sha fuel now c addr = some (c', .error e) →
         c'.chain = c.chain ∧
         c'.transaction_pool = c.transaction_pool ++ [rewardTx addr c.miner_reward]) := by
  refine ⟨?_, ?_, ?_⟩
  · intro tx c' e h
    rcases add_transaction_cases _ _ _ _ _ _ h with ⟨e1, _, hc⟩ | ⟨hr, _⟩
    · exact hc
    · exact absurd hr (by simp)
  · intro fuel b c' e h
    rcases add_block_to_chain_cases _ _ _ _ _ _ _ h with ⟨e1, _, hc⟩ | ⟨b1, hr, _⟩
    · exact hc
    · exact absurd hr (by simp)
  · intro fuel now addr c' e h
    rcases mine_transaction_pool_cases _ _ _ _ _ _ _ _ h with
      ⟨e1, _, hchain, hpool, _, _⟩ | ⟨b1, hr, _⟩
    · exact ⟨hchain, hpool⟩
    · exact absurd hr (by simp)

/-- C3, amended, witness: the failed mining call on `cPoolBad` keeps the
blocks and appends the reward transaction to the pool. -/
theorem C3_amended_witness :
    cPoolBadAfter.chain = cPoolBad.chain ∧
    cPoolBadAfter.transaction_pool =
      cPoolBad.transaction_pool ++ [rewardTx "mm" cPoolBad.miner_reward] :=
  (C3_amended_failure_atomicity verifyBad shaId cPoolBad).2.2 5 0 "mm"
    cPoolBadAfter .invalidTransaction rfl

/-- C7: a successful `mine_transaction_pool` call appends exactly one new
block, whose transaction list is the prior pending pool in submission
order followed by exactly one coinbase reward transaction (absent sender,
recipient the reward address, amount the chain's reward), links that
block to the previous head's stored hash, grows the chain by one, and
empties the pending pool. -/
theorem C7_mine_pool_success (verify : String → String → String → VerifyOutcome)
    (sha : String → String) (fuel now : Nat) (c c' : Chain) (addr : String)
    (h : Chain.mine_transaction_pool verify sha fuel now c addr = some (c', .ok ())) :
    ∃ b1, c'.chain = c.chain ++ [b1] ∧
      b1.transactions = c.transaction_pool ++ [rewardTx addr c.miner_reward] ∧
      b1.previous_hash = c.get_latest_block.hash ∧
      c'.chain.length = c.chain.length + 1 ∧
      c'.transaction_pool = [] := by
  rcases mine_transaction_pool_cases _ _ _ _ _ _ _ _ h with
    ⟨e, hr, _⟩ | ⟨b1, _, hmine, hchain, hpool, _, _⟩
  · exact absurd hr (by simp)
  · obtain ⟨_, hloop⟩ := Block.mine_eq_ok _ _ _ _ _ _ hmine
    obtain ⟨htxs, hprev, _, _, _⟩ := mineLoop_eq_some _ _ _ _ _ hloop
    refine ⟨b1, hchain, htxs, hprev, ?_, hpool⟩
    rw [hchain]; simp

/-- C7, witness: mining the empty pool of a fresh difficulty-0 chain
produces `cMined`, which satisfies all five conclusions. -/
theorem C7_witness :
    ∃ b1, cMined.chain = cInit.chain ++ [b1] ∧
      b1.transactions = cInit.transaction_pool ++ [rewardTx "mm" cInit.miner_reward] ∧
      b1.previous_hash = cInit.get_latest_block.hash ∧
      cMined.chain.length = cInit.chain.length + 1 ∧
      cMined.transaction_pool = [] :=
  C7_mine_pool_success verifyOk shaId 1 0 cInit cMined "mm" rfl

/-- C1: a one-block chain validates exactly when the genesis block's
stored hash equals its recomputed hash; a chain of length at least two
validates exactly when every block at index 1 or higher passes, in order,
the transaction check, the tamper check and the link check against its
predecessor's stored hash; and the first failing check of a block makes
the sweep answer `False` no matter what follows — in particular, the
genesis block's own hash is never re-examined in the general case. -/
theorem C1_validate_chain_characterisation
    (verify : String → String → String → VerifyOutcome) (sha : String → String)
    (c : Chain) :
    (∀ g, c.chain = [g] →
       (Chain.validate_chain verify sha c = .ok true ↔
          g.hash = Block.compute_hash sha g)) ∧
    (2 ≤ c.chain.length →
       (Chain.validate_chain verify sha c = .ok true ↔
          ∀ i (h : i < c.chain.length), 1 ≤ i →
            (c.chain.get ⟨i, h⟩).validate_transactions verify sha = .ok true ∧
            (c.chain.get ⟨i, h⟩).hash = Block.compute_hash sha (c.chain.get ⟨i, h⟩) ∧
            (c.chain.get ⟨i, h⟩).previous_hash =
              (c.chain.get ⟨i - 1, by omega⟩).hash)) ∧
    (∀ prev b rest,
       (b.validate_transactions verify sha = .ok false ∨
        (b.validate_transactions verify sha = .ok true ∧
           b.hash ≠ Block.compute_hash sha b) ∨
        (b.validate_transactions verify sha = .ok true ∧
           b.hash = Block.compute_hash sha b ∧ b.previous_hash ≠ prev.hash)) →
       validateFrom verify sha prev (b :: rest) = .ok false) := by
  obtain ⟨l, pool, rew, diff⟩ := c
  refine ⟨?_, ?_, ?_⟩
  · intro g hg
    simp only at hg
    subst hg
    show (if g.hash ≠ Block.compute_hash sha g then Except.ok false
          else Except.ok true) = .ok true ↔ g.hash = Block.compute_hash sha g
    constructor
    · intro hv
      by_cases he : g.hash = Block.compute_hash sha g
      · exact he
      · rw [if_pos he] at hv
        exact absurd hv (by simp)
    · intro he
      rw [if_neg (not_not.mpr he)]
  · intro hlen
    simp only at hlen
    cases l with
    | nil => simp at hlen
    | cons g rest =>
      cases rest with
      | nil => simp at hlen
      | cons b rest1 =>
        show validateFrom verify sha g (b :: rest1) = .ok true ↔ _
        rw [validateFrom_ok_true_iff]
        constructor
        · intro h i hi h1
          obtain ⟨j, rfl⟩ : ∃ j, i = j + 1 := ⟨i - 1, by omega⟩
          exact h j (by simpa using hi)
        · intro h j hj
          exact h (j + 1) (by simpa using hj) (by omega)
  · intro prev b rest hcase
    rw [validateFrom]
    rcases hcase with hval | ⟨hval, hne⟩ | ⟨hval, heq, hne⟩
    · rw [hval]
    · rw [hval, if_pos hne]
    · rw [hval, if_neg (not_not.mpr heq), if_pos hne]

/-- C1, witness: the fresh one-block chain validates, by the length-1
characterisation. -/
theorem C1_witness : Chain.validate_chain verifyOk shaId cInit = .ok true :=
  ((C1_validate_chain_characterisation verifyOk shaId cInit).1
    (Chain.big_bang shaId 0) rfl).mpr rfl

/-- C2: every chain state reachable from a freshly constructed chain
through `add_transaction`, `mine_transaction_pool` and
`add_block_to_chain` has a nonempty block list whose genesis block has an
empty `previous_hash`, in which every later block's `previous_hash`
equals its predecessor's stored hash, every block's stored hash equals
its recomputed hash, and every sender-present transaction in any block is
valid. -/
theorem C2_reachable_chain_invariant
    (verify : String → String → String → VerifyOutcome) (sha : String → String)
    (c : Chain) (h : Reachable verify sha c) :
    c.chain ≠ [] ∧
    (c.chain.headD defaultBlock).previous_hash = "" ∧
    List.Chain' (fun a b => b.previous_hash = a.hash) c.chain ∧
    (∀ b ∈ c.chain, b.hash = Block.compute_hash sha b) ∧
    (∀ b ∈ c.chain, ∀ tx ∈ b.transactions,
       tx.from_address ≠ none → tx.is_valid verify sha = .ok true) :=
  chainInv_of_reachable h

/-- C2, witness: the invariant at the freshly constructed chain. -/
theorem C2_witness :
    cInit.chain ≠ [] ∧
    (cInit.chain.headD defaultBlock).previous_hash = "" ∧
    List.Chain' (fun a b => b.previous_hash = a.hash) cInit.chain ∧
    (∀ b ∈ cInit.chain, b.hash = Block.compute_hash shaId b) ∧
    (∀ b ∈ cInit.chain, ∀ tx ∈ b.transactions,
       tx.from_address ≠ none → tx.is_valid verifyOk shaId = .ok true) :=
  C2_reachable_chain_invariant verifyOk shaId cInit (Reachable.init 0 0)

/-- C9, counterexample: on `cShortCircuit` the validation sweep stops at
block 1 (its stored hash fails the tamper check) and returns the boolean
`False`, even though block 2 — the last block of the chain — contains a
sender-present transaction with no signature; so `validate_chain` does
return a boolean for a chain in which not every sender-present
transaction of every non-genesis block carries a signature. -/
theorem C9_counterexample_boolean_despite_unsigned :
    Chain.validate_chain verifyOk shaId cShortCircuit = .ok false ∧
    txUnsigned ∈ (cShortCircuit.chain.getLastD defaultBlock).transactions ∧
    txUnsigned.from_address ≠ none ∧
    txUnsigned.signature = none := by
  refine ⟨rfl, ?_, ?_, rfl⟩
  · exact List.mem_singleton.mpr rfl
  · simp [txUnsigned]

/-- C9, amended: the missing-signature error propagates out of
`add_transaction`, `Block.mine` and `validate_chain` whenever evaluation
actually reaches `is_valid` on a sender-present unsigned transaction —
all earlier transactions of its block validating to `True`, and, for
`validate_chain`, every non-genesis block before it (the list `good`, at
any position in the chain) passing all three checks; and
`validate_chain` returns a boolean whenever every sender-present
transaction in every non-genesis block carries a nonempty signature — but
it may also return a boolean for chains whose unsigned transaction lies
beyond the first failing check. -/
theorem C9_amended_missing_signature_propagation
    (verify : String → String → String → VerifyOutcome) (sha : String → String) :
    (∀ (c : Chain) (tx : Transaction) (a : String),
       tx.from_address = some a → a ≠ "" → tx.to_address ≠ "" →
       falsyOpt tx.signature →
       Chain.add_transaction verify sha c tx = (c, .error .missingSignature)) ∧
    (∀ (difficulty fuel : Nat) (b : Block) (pre post : List Transaction)
       (tx : Transaction),
       b.transactions = pre ++ tx :: post →
       (∀ t ∈ pre, t.is_valid verify sha = .ok true) →
       tx.from_address ≠ none → falsyOpt tx.signature →
       Block.mine verify sha difficulty fuel b = some (.error .missingSignature)) ∧
    (∀ (c : Chain) (g : Block) (good : List Block) (b : Block) (rest : List Block)
       (pre post : List Transaction) (tx : Transaction),
       c.chain = g :: good ++ b :: rest →
       (∀ i (h : i < good.length),
          (good.get ⟨i, h⟩).validate_transactions verify sha = .ok true ∧
          (good.get ⟨i, h⟩).hash = Block.compute_hash sha (good.get ⟨i, h⟩) ∧
          (good.get ⟨i, h⟩).previous_hash =
            ((g :: good).get ⟨i, Nat.lt_succ_of_lt h⟩).hash) →
       b.transactions = pre ++ tx :: post →
       (∀ t ∈ pre, t.is_valid verify sha = .ok true) →
       tx.from_address ≠ none → falsyOpt tx.signature →
       Chain.validate_chain verify sha c = .error .missingSignature) ∧
    (∀ c : Chain,
       (∀ b ∈ c.chain.tail, ∀ tx ∈ b.transactions,
          tx.from_address ≠ none → ¬ falsyOpt tx.signature) →
       ∃ bv, Chain.validate_chain verify sha c = .ok bv) := by
  have herr : ∀ (tx : Transaction), tx.from_address ≠ none → falsyOpt tx.signature →
      tx.is_valid verify sha = .error .missingSignature := by
    intro tx h1 h2
    rw [is_valid_eq_error_iff]
    exact ⟨rfl, h1, h2⟩
  have hmine : ∀ (b : Block) (pre post : List Transaction) (tx : Transaction),
      b.transactions = pre ++ tx :: post →
      (∀ t ∈ pre, t.is_valid verify sha = .ok true) →
      tx.from_address ≠ none → falsyOpt tx.signature →
      b.validate_transactions verify sha = .error .missingSignature := by
    intro b pre post tx htxs hpre h1 h2
    rw [Block.validate_transactions, htxs]
    exact validateTxList_append_error verify sha pre post tx _ hpre (herr tx h1 h2)
  refine ⟨?_, ?_, ?_, ?_⟩
  · intro c tx a haddr ha hto hsig
    have hcond : (falsyOpt tx.from_address || tx.to_address == "") = false := by
      simp [falsyOpt, haddr, ha, hto]
    rw [Chain.add_transaction, if_neg (by simp [hcond]),
      herr tx (by rw [haddr]; exact Option.some_ne_none a) hsig]
  · intro difficulty fuel b pre post tx htxs hpre h1 h2
    rw [Block.mine, hmine b pre post tx htxs hpre h1 h2]
  · intro c g good b rest pre post tx hchain hgood htxs hpre h1 h2
    obtain ⟨l, pool, rew, diff⟩ := c
    simp only at hchain
    subst hchain
    have herrb : b.validate_transactions verify sha = .error .missingSignature :=
      hmine b pre post tx htxs hpre h1 h2
    cases good with
    | nil =>
      show validateFrom verify sha g ([] ++ b :: rest) = .error .missingSignature
      exact validateFrom_reaches_error verify sha [] g b rest _
        (fun i hi => absurd hi (by simp)) herrb
    | cons g1 gs =>
      show validateFrom verify sha g ((g1 :: gs) ++ b :: rest) = .error .missingSignature
      exact validateFrom_reaches_error verify sha (g1 :: gs) g b rest _ hgood herrb
  · intro c hs
    obtain ⟨l, pool, rew, diff⟩ := c
    simp only at hs
    cases l with
    | nil => exact ⟨true, rfl⟩
    | cons g rest =>
      cases rest with
      | nil =>
        show ∃ bv, (if g.hash ≠ Block.compute_hash sha g then Except.ok false
          else Except.ok true) = .ok bv
        by_cases hh : g.hash = Block.compute_hash sha g
        · exact ⟨true, by rw [if_neg (not_not.mpr hh)]⟩
        · exact ⟨false, by rw [if_pos hh]⟩
      | cons b rest1 =>
        exact validateFrom_ne_error verify sha (b :: rest1) g hs

/-- C9, amended, witness: submitting the unsigned sender-present fixture
raises the missing-signature error out of `add_transaction`; and on
`cLate` — whose unsigned transaction sits in the second non-genesis
block, behind a fully passing block — `validate_chain` propagates the
error as well. -/
theorem C9_witness :
    Chain.add_transaction verifyOk shaId cInit txUnsigned =
      (cInit, .error .missingSignature) ∧
    Chain.validate_chain verifyOk shaId cLate = .error .missingSignature :=
  ⟨(C9_amended_missing_signature_propagation verifyOk shaId).1 cInit txUnsigned "aa"
     rfl (by decide) (by decide) rfl,
   (C9_amended_missing_signature_propagation verifyOk shaId).2.2.1 cLate
     (Chain.big_bang shaId 0) [goodBlock] blockUnsigned [] [] [] txUnsigned rfl
     (fun i hi => by
       cases i with
       | zero => exact ⟨rfl, rfl, rfl⟩
       | succ j => simp at hi)
     rfl (fun t ht => absurd ht (List.not_mem_nil t)) (by simp [txUnsigned]) rfl⟩

/-- C10: no operation constrains the sign of `amount`: a transaction with
non-positive amount, well-formed addresses and a verifying signature is
appended to the pool by `add_transaction`, and after a successful
`mine_transaction_pool` from any reachable state the resulting chain
still passes `validate_chain` and contains that transaction in its last
block. -/
theorem C10_amount_unconstrained
    (verify : String → String → String → VerifyOutcome) (sha : String → String)
    (c : Chain) (tx : Transaction) (a : String)
    (_hneg : tx.amount ≤ 0)
    (hfrom : tx.from_address = some a) (ha : a ≠ "") (hto : tx.to_address ≠ "")
    (hvalid : tx.is_valid verify sha = .ok true) :
    Chain.add_transaction verify sha c tx =
      ({ c with transaction_pool := c.transaction_pool ++ [tx] }, .ok ()) ∧
    (Reachable verify sha c →
       ∀ fuel now addr c',
         Chain.mine_transaction_pool verify sha fuel now
             { c with transaction_pool := c.transaction_pool ++ [tx] } addr =
           some (c', .ok ()) →
         Chain.validate_chain verify sha c' = .ok true ∧
         tx ∈ (c'.chain.getLastD defaultBlock).transactions) := by
  have hadd : Chain.add_transaction verify sha c tx =
      ({ c with transaction_pool := c.transaction_pool ++ [tx] }, .ok ()) := by
    have hcond : (falsyOpt tx.from_address || tx.to_address == "") = false := by
      simp [falsyOpt, hfrom, ha, hto]
    rw [Chain.add_transaction, if_neg (by simp [hcond]), hvalid]
  refine ⟨hadd, ?_⟩
  intro hreach fuel now addr c' hminep
  have hreach2 : Reachable verify sha { c with transaction_pool := c.transaction_pool ++ [tx] } :=
    Reachable.add_tx hreach hadd
  have hreach3 : Reachable verify sha c' := Reachable.mine_pool hreach2 hminep
  refine ⟨validate_chain_of_inv verify sha c' (chainInv_of_reachable hreach3), ?_⟩
  rcases mine_transaction_pool_cases _ _ _ _ _ _ _ _ hminep with
    ⟨e, hr, _⟩ | ⟨b1, _, hmine2, hchain, _, _, _⟩
  · exact absurd hr (by simp)
  · obtain ⟨_, hloop⟩ := Block.mine_eq_ok _ _ _ _ _ _ hmine2
    obtain ⟨htxs, _, _, _, _⟩ := mineLoop_eq_some _ _ _ _ _ hloop
    rw [hchain, List.getLastD_concat, htxs]
    show tx ∈ (c.transaction_pool ++ [tx]) ++ [rewardTx addr c.miner_reward]
    simp

/-- C10, witness: the negative-amount fixture `txNeg` goes through
submission and mining, after which the chain still validates and the
mined block contains it. -/
theorem C10_witness :
    Chain.add_transaction verifyOk shaId cInit txNeg = (cNegPool, .ok ()) ∧
    (Chain.validate_chain verifyOk shaId cNegMined = .ok true ∧
     txNeg ∈ (cNegMined.chain.getLastD defaultBlock).transactions) :=
  ⟨(C10_amount_unconstrained verifyOk shaId cInit txNeg "aa" (by decide) rfl
      (by decide) (by decide) rfl).1,
   (C10_amount_unconstrained verifyOk shaId cInit txNeg "aa" (by decide) rfl
      (by decide) (by decide) rfl).2 (Reachable.init 0 0) 1 0 "mm" cNegMined rfl⟩

end BlockchainDemo
